import Mathlib

/-!
A verification development for the asar-scan repository: a Go command-line
tool that scans a host for Electron applications and reports, per
application, whether it is an Electron app, its best-effort version, whether
it ships an `app.asar` archive, whether ASAR integrity appears enabled, and
whether the `OnlyLoadAppFromAsar` fuse appears enabled.

The Go code is embedded shallowly: file contents are lists of characters,
the filesystem evidence a function consults is packaged into a structure of
booleans (stat outcomes) and `Option` contents (read outcomes, `none` when
the read fails), and each Go function becomes a pure Lean function over that
evidence.  Substring search (`bytes.Contains`) and the small family of
version regular expressions used by the detector are implemented directly.
-/

namespace AsarScan

/-- Raw file contents (Go byte slices / strings) are modelled as lists of
characters. -/
abbrev Bytes := List Char

/-- Prefix test on byte lists, the auxiliary of substring search. -/
def isPrefixB : Bytes → Bytes → Bool
  | [], _ => true
  | _ :: _, [] => false
  | a :: as, b :: bs => a == b && isPrefixB as bs

/-- `bytes.Contains hay needle` from the Go standard library: does `needle`
occur as a contiguous substring of `hay`? -/
def bytesContains : Bytes → Bytes → Bool
  | [], needle => isPrefixB needle []
  | c :: t, needle => isPrefixB needle (c :: t) || bytesContains t needle

theorem isPrefixB_iff (n : Bytes) : ∀ h : Bytes, isPrefixB n h = true ↔ ∃ r, h = n ++ r := by
  induction n with
  | nil => intro h; simp [isPrefixB]
  | cons a as ih =>
    intro h
    cases h with
    | nil => simp [isPrefixB]
    | cons b bs =>
      simp only [isPrefixB, Bool.and_eq_true, beq_iff_eq, ih, List.cons_append,
        List.cons.injEq]
      constructor
      · rintro ⟨hab, r, hr⟩
        exact ⟨r, hab.symm, hr⟩
      · rintro ⟨r, hba, hr⟩
        exact ⟨hba.symm, r, hr⟩

theorem bytesContains_iff (h n : Bytes) :
    bytesContains h n = true ↔ ∃ l r, h = l ++ n ++ r := by
  induction h with
  | nil =>
    simp only [bytesContains, isPrefixB_iff]
    constructor
    · rintro ⟨r, hr⟩
      exact ⟨[], r, by simpa using hr⟩
    · rintro ⟨l, r, hr⟩
      refine ⟨r, ?_⟩
      have h0 : l = [] ∧ n = [] ∧ r = [] := by
        simpa [List.append_assoc] using hr.symm
      simp [h0.1, h0.2.1, h0.2.2]
  | cons c t ih =>
    simp only [bytesContains, Bool.or_eq_true, isPrefixB_iff, ih]
    constructor
    · rintro (⟨r, hr⟩ | ⟨l, r, hr⟩)
      · exact ⟨[], r, by simp [hr]⟩
      · exact ⟨c :: l, r, by simp [hr]⟩
    · rintro ⟨l, r, hr⟩
      cases l with
      | nil => exact Or.inl ⟨r, by simpa using hr⟩
      | cons a l2 =>
        right
        simp only [List.cons_append, List.cons.injEq] at hr
        exact ⟨l2, r, hr.2⟩

theorem bytesContains_trans {big mid small : Bytes}
    (h1 : bytesContains big mid = true) (h2 : bytesContains mid small = true) :
    bytesContains big small = true := by
  rw [bytesContains_iff] at h1 h2 ⊢
  obtain ⟨l1, r1, e1⟩ := h1
  obtain ⟨l2, r2, e2⟩ := h2
  exact ⟨l1 ++ l2, r2 ++ r1, by simp [e1, e2, List.append_assoc]⟩

/-! ### Marker byte sequences searched for by the integrity checker -/

def electronAsarSig : Bytes := "ElectronAsar".data
def integritySig : Bytes := "Integrity".data
def sha256Sig : Bytes := "sha256".data
def strongSig : Bytes := "EnableEmbeddedAsarIntegrityValidation".data
def integrityKeySig : Bytes := "<key>ElectronAsarIntegrity</key>".data
def hashKeySig : Bytes := "<key>hash</key>".data
def algorithmKeySig : Bytes := "<key>algorithm</key>".data
def onlyLoadAppSig : Bytes := "OnlyLoadAppFromAsar".data
def onlyLoadSig : Bytes := "OnlyLoadFromAsar".data
def fuseOnlyLoadSig : Bytes := "FuseV1Options.OnlyLoadAppFromAsar".data

/-! ### Windows integrity check (`checkAsarIntegrityWindows`) -/

/-- The Windows evidence for one application: stat and read outcomes for the
files `checkAsarIntegrityWindows` and `isElectronAppWindows` consult.  A
`none` read models `os.ReadFile` failing. -/
structure WinFS where
  exeExists : Bool
  resourcesExists : Bool
  asarExists : Bool
  packageJsonExists : Bool
  packageJsonRead : Option Bytes
  exeRead : Option Bytes
  electronAsarExists : Bool
deriving DecidableEq

/-- The confidence score accumulated by `checkAsarIntegrityWindows`: one per
baseline signature found, plus two for the strong
`EnableEmbeddedAsarIntegrityValidation` signature. -/
def windowsMatchCount (exe : Bytes) : Nat :=
  (if bytesContains exe electronAsarSig then 1 else 0) +
  (if bytesContains exe integritySig then 1 else 0) +
  (if bytesContains exe sha256Sig then 1 else 0) +
  (if bytesContains exe strongSig then 2 else 0)

/-- The Windows integrity verdict: `matchCount >= 2`. -/
def windowsHasAsarIntegrity (exe : Bytes) : Bool :=
  decide (2 ≤ windowsMatchCount exe)

/-- The Windows `OnlyLoadAppFromAsar` fuse detection: the primary spelling,
otherwise either of the two alternative spellings. -/
def windowsOnlyLoad (exe : Bytes) : Bool :=
  if bytesContains exe onlyLoadAppSig then true
  else bytesContains exe onlyLoadSig || bytesContains exe fuseOnlyLoadSig

/-- `checkAsarIntegrityWindows`: errors when the executable cannot be read,
otherwise returns (integrity verdict, fuse verdict). -/
def checkAsarIntegrityWindows (fs : WinFS) : Except Bytes (Bool × Bool) :=
  match fs.exeRead with
  | none => Except.error ("error reading executable".data)
  | some exe => Except.ok (windowsHasAsarIntegrity exe, windowsOnlyLoad exe)

/-- Modelled from the spec's words for claim C1: the score is the number of
the three baseline markers present, plus 2 if the strong marker is
present. -/
def specWindowsScore (exe : Bytes) : Nat :=
  (List.countP (fun s => bytesContains exe s) [electronAsarSig, integritySig, sha256Sig]) +
  (if bytesContains exe strongSig then 2 else 0)

theorem specWindowsScore_eq (exe : Bytes) : specWindowsScore exe = windowsMatchCount exe := by
  unfold specWindowsScore windowsMatchCount
  simp only [List.countP_cons, List.countP_nil]
  cases bytesContains exe electronAsarSig <;>
    cases bytesContains exe integritySig <;>
      cases bytesContains exe sha256Sig <;>
        cases bytesContains exe strongSig <;> simp

/-! ### Claims C1, C8, C10 about the Windows integrity score -/

/-- Concrete executable content holding the `sha256` and `Integrity`
markers. -/
def c1Exe : Bytes := sha256Sig ++ integritySig

def c1Fs : WinFS :=
  { exeExists := true, resourcesExists := true, asarExists := true,
    packageJsonExists := false, packageJsonRead := none,
    exeRead := some c1Exe, electronAsarExists := false }

def c8Smaller : Bytes := sha256Sig ++ integritySig

def c8Bigger : Bytes := ("ab".data ++ c8Smaller) ++ "cd".data

/-- C1: on Windows, for every readable executable content, the integrity
verdict of `checkAsarIntegrityWindows` is exactly "score >= 2", where the
score counts the three baseline markers (1 each) and adds 2 for the strong
`EnableEmbeddedAsarIntegrityValidation` marker; `archiveIntegrityEnabled` is
true iff that score is at least 2. -/
theorem c1_windows_integrity_threshold (fs : WinFS) (exe : Bytes)
    (h : fs.exeRead = some exe) :
    (∃ o, checkAsarIntegrityWindows fs = Except.ok (windowsHasAsarIntegrity exe, o)) ∧
    (windowsHasAsarIntegrity exe = true ↔ 2 ≤ specWindowsScore exe) := by
  constructor
  · exact ⟨windowsOnlyLoad exe, by simp [checkAsarIntegrityWindows, h]⟩
  · rw [specWindowsScore_eq]
    simp [windowsHasAsarIntegrity]

theorem c1_witness :
    (c1Fs.exeRead = some c1Exe) ∧
    ((∃ o, checkAsarIntegrityWindows c1Fs = Except.ok (windowsHasAsarIntegrity c1Exe, o)) ∧
      (windowsHasAsarIntegrity c1Exe = true ↔ 2 ≤ specWindowsScore c1Exe)) :=
  ⟨rfl, c1_windows_integrity_threshold c1Fs c1Exe rfl⟩

/-- C8: the Windows integrity confidence score is monotone under content
extension: if `bigger` contains `smaller` as a substring then the score of
`bigger` is at least that of `smaller`, so a true integrity verdict is never
flipped to false by adding marker bytes. -/
theorem c8_windows_score_monotone (smaller bigger : Bytes)
    (h : bytesContains bigger smaller = true) :
    windowsMatchCount smaller ≤ windowsMatchCount bigger ∧
    (windowsHasAsarIntegrity smaller = true → windowsHasAsarIntegrity bigger = true) := by
  have key : ∀ s k, (if bytesContains smaller s then k else 0) ≤
      (if bytesContains bigger s then k else 0) := by
    intro s k
    by_cases hs : bytesContains smaller s = true
    · have hb := bytesContains_trans h hs
      simp [hs, hb]
    · simp [hs]
  have hle : windowsMatchCount smaller ≤ windowsMatchCount bigger := by
    unfold windowsMatchCount
    exact Nat.add_le_add (Nat.add_le_add (Nat.add_le_add (key _ _) (key _ _)) (key _ _)) (key _ _)
  refine ⟨hle, fun hv => ?_⟩
  simp only [windowsHasAsarIntegrity, decide_eq_true_eq] at hv ⊢
  omega

theorem c8_witness :
    (bytesContains c8Bigger c8Smaller = true) ∧
    (windowsMatchCount c8Smaller ≤ windowsMatchCount c8Bigger ∧
      (windowsHasAsarIntegrity c8Smaller = true → windowsHasAsarIntegrity c8Bigger = true)) :=
  ⟨by decide, c8_windows_score_monotone c8Smaller c8Bigger (by decide)⟩

/-- C10: on Windows, any executable content containing the strong marker
`EnableEmbeddedAsarIntegrityValidation` scores at least 3 (the baseline
marker `Integrity` is a substring of the strong marker), so the integrity
verdict is true with no other marker required. -/
theorem c10_strong_marker_suffices (exe : Bytes)
    (h : bytesContains exe strongSig = true) :
    3 ≤ windowsMatchCount exe ∧ windowsHasAsarIntegrity exe = true := by
  have hsub : bytesContains strongSig integritySig = true := by decide
  have hint : bytesContains exe integritySig = true := bytesContains_trans h hsub
  have h3 : 3 ≤ windowsMatchCount exe := by
    unfold windowsMatchCount
    have e1 : (if bytesContains exe integritySig then 1 else 0) = 1 := by simp [hint]
    have e2 : (if bytesContains exe strongSig then 2 else 0) = 2 := by simp [h]
    rw [e1, e2]
    omega
  exact ⟨h3, by simp only [windowsHasAsarIntegrity, decide_eq_true_eq]; omega⟩

theorem c10_witness :
    (bytesContains strongSig strongSig = true) ∧
    (3 ≤ windowsMatchCount strongSig ∧ windowsHasAsarIntegrity strongSig = true) :=
  ⟨by decide, c10_strong_marker_suffices strongSig (by decide)⟩

/-! ### macOS integrity check (`checkAsarIntegrityMacos`) -/

/-- The macOS evidence for one application bundle: stat and read outcomes
for the files `checkAsarIntegrityMacos` and `isElectronAppMacos` consult. -/
structure MacFS where
  isAppSuffix : Bool
  plistExists : Bool
  frameworkExists : Bool
  plistRead : Option Bytes
  frameworkPlistExists : Bool
  frameworkPlistRead : Option Bytes
  asarExists : Bool
  packageJsonExists : Bool
  packageJsonRead : Option Bytes
  execExists : Bool
  execRead : Option Bytes
deriving DecidableEq

/-- The executable-side fuse check of `checkAsarIntegrityMacos`: the
executable is consulted only when its stat succeeds, and a failed read
degrades the signal to false. -/
def macosOnlyLoadFromExec (fs : MacFS) : Bool :=
  if fs.execExists then
    match fs.execRead with
    | some execContent => bytesContains execContent onlyLoadAppSig
    | none => false
  else false

/-- `checkAsarIntegrityMacos`: errors when `Info.plist` cannot be read;
otherwise integrity is the presence of the `ElectronAsarIntegrity` key (the
hash/algorithm sub-key check only affects logging, both branches set the
flag), and the fuse flag is the executable signal or else any of the three
marker spellings in the plist. -/
def checkAsarIntegrityMacos (fs : MacFS) : Except Bytes (Bool × Bool) :=
  match fs.plistRead with
  | none => Except.error ("error reading Info.plist".data)
  | some plist =>
    let hasAsarIntegrity :=
      if bytesContains plist integrityKeySig then
        if bytesContains plist hashKeySig && bytesContains plist algorithmKeySig then true
        else true
      else false
    let fromExec := macosOnlyLoadFromExec fs
    let hasOnlyLoadFromAsar :=
      if fromExec then fromExec
      else
        bytesContains plist onlyLoadAppSig ||
          (bytesContains plist onlyLoadSig || bytesContains plist fuseOnlyLoadSig)
    Except.ok (hasAsarIntegrity, hasOnlyLoadFromAsar)

/-! ### Claims C2 and C5 about the macOS check and fuse detection -/

/-- C2: on macOS, for every readable plist content, the presence of the
`<key>ElectronAsarIntegrity</key>` substring alone makes the integrity
verdict true, whether or not the hash and algorithm sub-keys are present. -/
theorem c2_macos_key_suffices (fs : MacFS) (plist : Bytes)
    (hread : fs.plistRead = some plist)
    (hkey : bytesContains plist integrityKeySig = true) :
    ∃ o, checkAsarIntegrityMacos fs = Except.ok (true, o) := by
  refine ⟨?_, ?_⟩
  · exact (if macosOnlyLoadFromExec fs then macosOnlyLoadFromExec fs
      else bytesContains plist onlyLoadAppSig ||
        (bytesContains plist onlyLoadSig || bytesContains plist fuseOnlyLoadSig))
  · simp [checkAsarIntegrityMacos, hread, hkey]

def c2Plist : Bytes := integrityKeySig

def c2Fs : MacFS :=
  { isAppSuffix := true, plistExists := true, frameworkExists := true,
    plistRead := some c2Plist, frameworkPlistExists := false,
    frameworkPlistRead := none, asarExists := true, packageJsonExists := false,
    packageJsonRead := none, execExists := false, execRead := none }

theorem c2_witness :
    (c2Fs.plistRead = some c2Plist) ∧
    (bytesContains c2Plist integrityKeySig = true) ∧
    (∃ o, checkAsarIntegrityMacos c2Fs = Except.ok (true, o)) :=
  ⟨rfl, by decide, c2_macos_key_suffices c2Fs c2Plist rfl (by decide)⟩

/-- C5: fuse detection is a pure OR over the marker signals.  On macOS the
fuse verdict is: marker in the executable bytes, or any of the three
spellings in the plist; on Windows it is: any of the three spellings in the
executable bytes; and an input carrying exactly one spelling (and none of
the others) already yields true. -/
theorem c5_fuse_is_or (mfs : MacFS) (plist execContent : Bytes) (wfs : WinFS) (w : Bytes)
    (hp : mfs.plistRead = some plist) (hx : mfs.execExists = true)
    (he : mfs.execRead = some execContent) (hw : wfs.exeRead = some w) :
    (∃ i, checkAsarIntegrityMacos mfs = Except.ok (i,
      bytesContains execContent onlyLoadAppSig ||
        (bytesContains plist onlyLoadAppSig ||
          (bytesContains plist onlyLoadSig || bytesContains plist fuseOnlyLoadSig)))) ∧
    (∃ j, checkAsarIntegrityWindows wfs = Except.ok (j,
      bytesContains w onlyLoadAppSig ||
        (bytesContains w onlyLoadSig || bytesContains w fuseOnlyLoadSig))) ∧
    ((bytesContains w onlyLoadSig = true ∧ bytesContains w onlyLoadAppSig = false ∧
        bytesContains w fuseOnlyLoadSig = false) →
      ∃ j, checkAsarIntegrityWindows wfs = Except.ok (j, true)) := by
  have hfe : macosOnlyLoadFromExec mfs = bytesContains execContent onlyLoadAppSig := by
    simp [macosOnlyLoadFromExec, hx, he]
  refine ⟨⟨?_, ?_⟩, ⟨?_, ?_⟩, ?_⟩
  · exact (if bytesContains plist integrityKeySig then
      (if bytesContains plist hashKeySig && bytesContains plist algorithmKeySig then true
       else true) else false)
  · simp only [checkAsarIntegrityMacos, hp, hfe]
    cases hb : bytesContains execContent onlyLoadAppSig <;> simp [hb]
  · exact windowsHasAsarIntegrity w
  · simp only [checkAsarIntegrityWindows, hw, windowsOnlyLoad]
    cases hb : bytesContains w onlyLoadAppSig <;> simp [hb]
  · rintro ⟨h1, h2, h3⟩
    exact ⟨windowsHasAsarIntegrity w,
      by simp [checkAsarIntegrityWindows, hw, windowsOnlyLoad, h1, h2, h3]⟩

def c5MacFs : MacFS :=
  { isAppSuffix := true, plistExists := true, frameworkExists := true,
    plistRead := some [], frameworkPlistExists := false, frameworkPlistRead := none,
    asarExists := true, packageJsonExists := false, packageJsonRead := none,
    execExists := true, execRead := some onlyLoadAppSig }

def c5WinFs : WinFS :=
  { exeExists := true, resourcesExists := true, asarExists := true,
    packageJsonExists := false, packageJsonRead := none,
    exeRead := some onlyLoadSig, electronAsarExists := false }

theorem c5_witness :
    (c5MacFs.plistRead = some []) ∧ (c5MacFs.execExists = true) ∧
    (c5MacFs.execRead = some onlyLoadAppSig) ∧ (c5WinFs.exeRead = some onlyLoadSig) ∧
    ((∃ i, checkAsarIntegrityMacos c5MacFs = Except.ok (i,
        bytesContains onlyLoadAppSig onlyLoadAppSig ||
          (bytesContains [] onlyLoadAppSig ||
            (bytesContains [] onlyLoadSig || bytesContains [] fuseOnlyLoadSig)))) ∧
      (∃ j, checkAsarIntegrityWindows c5WinFs = Except.ok (j,
        bytesContains onlyLoadSig onlyLoadAppSig ||
          (bytesContains onlyLoadSig onlyLoadSig ||
            bytesContains onlyLoadSig fuseOnlyLoadSig))) ∧
      ((bytesContains onlyLoadSig onlyLoadSig = true ∧
          bytesContains onlyLoadSig onlyLoadAppSig = false ∧
          bytesContains onlyLoadSig fuseOnlyLoadSig = false) →
        ∃ j, checkAsarIntegrityWindows c5WinFs = Except.ok (j, true))) :=
  ⟨rfl, rfl, rfl, rfl, c5_fuse_is_or c5MacFs [] onlyLoadAppSig c5WinFs onlyLoadSig rfl rfl rfl rfl⟩

/-! ### The version regular expressions

Every regex the detector uses has the same simple shape: a literal, an
optional run of whitespace, a second literal, a non-empty greedy run of a
character class (the capture group), and an optional closing literal.  For
these shapes greedy matching is deterministic (no backtracking can succeed
where the greedy scan fails), so Go's leftmost-first `FindStringSubmatch`
is: try to match at each position from the left, first success wins, and
the capture is the maximal class run at the match site. -/

structure VPat where
  pre : Bytes
  skipWs : Bool
  mid : Bytes
  cls : Char → Bool
  post : Bytes

/-- Strip a literal from the front of a byte list. -/
def dropLit : Bytes → Bytes → Option Bytes
  | [], s => some s
  | _ :: _, [] => none
  | a :: as, b :: bs => if a == b then dropLit as bs else none

/-- The characters matched by `\s` in Go's regexp package. -/
def isGoSpace (c : Char) : Bool :=
  c == ' ' || c == '\t' || c == '\n' || c == Char.ofNat 12 || c == '\r'

/-- Match a version pattern at the start of `s`, returning the capture. -/
def matchVPatAt (pat : VPat) (s : Bytes) : Option Bytes :=
  match dropLit pat.pre s with
  | none => none
  | some s1 =>
    let s2 := if pat.skipWs then s1.dropWhile isGoSpace else s1
    match dropLit pat.mid s2 with
    | none => none
    | some s3 =>
      let cap := s3.takeWhile pat.cls
      if cap.isEmpty then none
      else
        match dropLit pat.post (s3.dropWhile pat.cls) with
        | none => none
        | some _ => some cap

/-- `regexp.FindStringSubmatch`'s capture group: leftmost match wins. -/
def findVPat (pat : VPat) : Bytes → Option Bytes
  | [] => matchVPatAt pat []
  | c :: t =>
    match matchVPatAt pat (c :: t) with
    | some cap => some cap
    | none => findVPat pat t

def isDigitDot (c : Char) : Bool := ('0' ≤ c && c ≤ '9') || c == '.'

def isNonQuote (c : Char) : Bool := !(c == '"')

def electronVersionKeyPat : VPat :=
  { pre := "<key>ElectronVersion</key>".data, skipWs := true,
    mid := "<string>".data, cls := isDigitDot, post := [] }

def cfBundleVersionKeyPat : VPat :=
  { pre := "<key>CFBundleVersion</key>".data, skipWs := true,
    mid := "<string>".data, cls := isDigitDot, post := [] }

def electronSlashPat : VPat :=
  { pre := "Electron/".data, skipWs := false, mid := [], cls := isDigitDot, post := [] }

def electronAtPat : VPat :=
  { pre := "electron@".data, skipWs := false, mid := [], cls := isDigitDot, post := [] }

/-- The macOS list's fifth pattern, with no leading quote in the source. -/
def macJsonElectronPat : VPat :=
  { pre := "electron\": \"".data, skipWs := false, mid := [],
    cls := isNonQuote, post := "\"".data }

def jsonElectronVersionPat : VPat :=
  { pre := "\"electronVersion\": \"".data, skipWs := false, mid := [],
    cls := isNonQuote, post := "\"".data }

/-- The windows alternative list's quoted `electron` pattern. -/
def winJsonElectronPat : VPat :=
  { pre := "\"electron\": \"".data, skipWs := false, mid := [],
    cls := isNonQuote, post := "\"".data }

/-- `"electron":\s*"([^"]+)"` used on package.json contents. -/
def pkgElectronPat : VPat :=
  { pre := "\"electron\":".data, skipWs := true, mid := "\"".data,
    cls := isNonQuote, post := "\"".data }

/-- `"electronVersion":\s*"([^"]+)"` used on Windows package.json contents. -/
def pkgElectronVersionPat : VPat :=
  { pre := "\"electronVersion\":".data, skipWs := true, mid := "\"".data,
    cls := isNonQuote, post := "\"".data }

/-- The `versionRegexes` family of `isElectronAppMacos`, in source order. -/
def versionRegexes : List VPat :=
  [electronVersionKeyPat, cfBundleVersionKeyPat, electronSlashPat, electronAtPat,
    macJsonElectronPat, jsonElectronVersionPat]

/-- First pattern in the family to match wins. -/
def findFirstVersion (s : Bytes) : Option Bytes :=
  versionRegexes.findSome? (fun p => findVPat p s)

def unknownVersion : Bytes := "unknown".data

/-! ### The runtime classifier (`isElectronAppMacos`, `isElectronAppWindows`) -/

/-- The rule-1 version resolution of `isElectronAppMacos` (framework found):
the regex family on the bundle plist, then - whenever the framework plist
exists and reads - the regex family on the framework plist, a match there
overwriting the earlier result. -/
def macosVersionRule1 (fs : MacFS) : Bytes :=
  match fs.plistRead with
  | none => unknownVersion
  | some plist =>
    let v := match findFirstVersion plist with
             | some cap => cap
             | none => unknownVersion
    if fs.frameworkPlistExists then
      match fs.frameworkPlistRead with
      | some fwPlist =>
        match findFirstVersion fwPlist with
        | some cap => cap
        | none => v
      | none => v
    else v

/-- The rule-2 version resolution of `isElectronAppMacos` (app.asar found):
the `"electron"` dependency key of `package.json`, else unknown. -/
def macosVersionRule2 (fs : MacFS) : Bytes :=
  if fs.packageJsonExists then
    match fs.packageJsonRead with
    | some pkg =>
      match findVPat pkgElectronPat pkg with
      | some cap => cap
      | none => unknownVersion
    | none => unknownVersion
  else unknownVersion

/-- `isElectronAppMacos`: bundle-shape and plist checks, then the framework
rule, then the app.asar rule.  The Go function's error is always nil. -/
def isElectronAppMacos (fs : MacFS) : Bool × Bytes :=
  if !fs.isAppSuffix then (false, [])
  else if !fs.plistExists then (false, [])
  else if fs.frameworkExists then (true, macosVersionRule1 fs)
  else if fs.asarExists then (true, macosVersionRule2 fs)
  else (false, [])

/-- The version resolution of `isElectronAppWindows` when app.asar exists. -/
def windowsVersionFromAsar (fs : WinFS) : Bytes :=
  if fs.packageJsonExists then
    match fs.packageJsonRead with
    | some pkg =>
      match findVPat pkgElectronPat pkg with
      | some cap => cap
      | none =>
        match findVPat pkgElectronVersionPat pkg with
        | some cap => cap
        | none => unknownVersion
    | none => unknownVersion
  else
    match fs.exeRead with
    | none => unknownVersion
    | some exe =>
      match findVPat electronSlashPat exe with
      | some cap => cap
      | none =>
        match [electronAtPat, winJsonElectronPat, jsonElectronVersionPat].findSome?
            (fun p => findVPat p exe) with
        | some cap => cap
        | none => unknownVersion

/-- `isElectronAppWindows`: executable and resources checks, then the
app.asar rule, then the electron.asar rule. -/
def isElectronAppWindows (fs : WinFS) : Bool × Bytes :=
  if !fs.exeExists then (false, [])
  else if !fs.resourcesExists then (false, [])
  else if fs.asarExists then (true, windowsVersionFromAsar fs)
  else if fs.electronAsarExists then
    (true,
      match fs.exeRead with
      | none => unknownVersion
      | some exe =>
        match findVPat electronSlashPat exe with
        | some cap => cap
        | none => unknownVersion)
  else (false, [])

/-! ### Native-module enumeration (`FindNodeFiles`)

A directory forest models the platform-specific search roots.  A `true`
access-error flag on a file models a failed lstat, on a directory a failed
directory read; in both cases the walk callback returns `filepath.SkipDir`,
which `filepath.Walk` swallows so that only that entry (or subtree) is
skipped.  A matching file is appended to the accumulator; once the cap is
reached the callback returns a genuine error that aborts the walk of the
current root, and the root loop then breaks. -/

inductive Entry where
  | file (name : Bytes) (accessErr : Bool)
  | dir (name : Bytes) (accessErr : Bool) (children : List Entry)

inductive WalkSig where
  | cont
  | abort
deriving DecidableEq

/-- Go `strings.HasSuffix(strings.ToLower(name), ".node")`. -/
def isNodeFileName (name : Bytes) : Bool :=
  isPrefixB (".node".data.reverse) ((name.map Char.toLower).reverse)

/-- One `filepath.Walk` pass over a sibling list, with the scanner's
callback: `.abort` models the "max files reached" error escaping the walk. -/
def visitL (maxF : Nat) (acc : List Bytes) : List Entry → List Bytes × WalkSig
  | [] => (acc, WalkSig.cont)
  | Entry.file name aerr :: es =>
    if aerr then visitL maxF acc es
    else if isNodeFileName name then
      let acc2 := acc ++ [name]
      if 0 < maxF ∧ maxF ≤ acc2.length then (acc2, WalkSig.abort)
      else visitL maxF acc2 es
    else visitL maxF acc es
  | Entry.dir _ aerr cs :: es =>
    if aerr then visitL maxF acc es
    else
      match visitL maxF acc cs with
      | (acc2, WalkSig.abort) => (acc2, WalkSig.abort)
      | (acc2, WalkSig.cont) => visitL maxF acc2 es

/-- The root loop of `FindNodeFiles`: walk each search root in turn and
break as soon as the cap is reached. -/
def findNodeFilesAux (maxF : Nat) (acc : List Bytes) : List Entry → List Bytes
  | [] => acc
  | r :: rs =>
    let acc2 := (visitL maxF acc [r]).1
    if 0 < maxF ∧ maxF ≤ acc2.length then acc2 else findNodeFilesAux maxF acc2 rs

/-- `FindNodeFiles` over the (platform-specific) search roots, with
`maxF = 0` meaning unlimited. -/
def FindNodeFiles (roots : List Entry) (maxF : Nat) : List Bytes :=
  findNodeFilesAux maxF [] roots

/-- All matching file names a full uncapped traversal would encounter, in
encounter order. -/
def allNodeFilesL : List Entry → List Bytes
  | [] => []
  | Entry.file name aerr :: es =>
    (if aerr then [] else if isNodeFileName name then [name] else []) ++ allNodeFilesL es
  | Entry.dir _ aerr cs :: es =>
    (if aerr then [] else allNodeFilesL cs) ++ allNodeFilesL es

/-! ### The per-application pipeline (`CheckAsarIntegrityForApp`, reporting) -/

/-- The per-application record assembled by the scanner (the `Path` field,
pure bookkeeping, is omitted). -/
structure AppResult where
  isElectron : Bool
  version : Bytes
  hasAsarFile : Bool
  asarIntegrity : Bool
  onlyLoadFromAsar : Bool
  nodeFiles : List Bytes
  integrityError : Bytes
deriving DecidableEq

def emptyAppResult : AppResult :=
  { isElectron := false, version := [], hasAsarFile := false, asarIntegrity := false,
    onlyLoadFromAsar := false, nodeFiles := [], integrityError := [] }

/-- One candidate application together with the host platform (the
`runtime.GOOS` switch) and its filesystem evidence. -/
inductive AppEnv where
  | darwin (fs : MacFS)
  | windows (fs : WinFS)
  | other
deriving DecidableEq

/-- `CheckAsarIntegrityForApp`: classify, check the archive, then run the
platform integrity check; a failed check stores its message in
`integrityError` and the result is still returned. -/
def CheckAsarIntegrityForApp : AppEnv → AppResult
  | AppEnv.other =>
    { emptyAppResult with integrityError := "unsupported operating system".data }
  | AppEnv.darwin fs =>
    let cls := isElectronAppMacos fs
    if !cls.1 then { emptyAppResult with isElectron := cls.1, version := cls.2 }
    else
      let hasAsar := fs.asarExists
      if !hasAsar then
        { emptyAppResult with isElectron := cls.1, version := cls.2, hasAsarFile := hasAsar }
      else
        match checkAsarIntegrityMacos fs with
        | Except.ok (integrity, onlyLoad) =>
          { emptyAppResult with
              isElectron := cls.1
              version := cls.2
              hasAsarFile := hasAsar
              asarIntegrity := integrity
              onlyLoadFromAsar := onlyLoad }
        | Except.error msg =>
          { emptyAppResult with
              isElectron := cls.1
              version := cls.2
              hasAsarFile := hasAsar
              integrityError := msg }
  | AppEnv.windows fs =>
    let cls := isElectronAppWindows fs
    if !cls.1 then { emptyAppResult with isElectron := cls.1, version := cls.2 }
    else
      let hasAsar := fs.asarExists
      if !hasAsar then
        { emptyAppResult with isElectron := cls.1, version := cls.2, hasAsarFile := hasAsar }
      else
        match checkAsarIntegrityWindows fs with
        | Except.ok (integrity, onlyLoad) =>
          { emptyAppResult with
              isElectron := cls.1
              version := cls.2
              hasAsarFile := hasAsar
              asarIntegrity := integrity
              onlyLoadFromAsar := onlyLoad }
        | Except.error msg =>
          { emptyAppResult with
              isElectron := cls.1
              version := cls.2
              hasAsarFile := hasAsar
              integrityError := msg }

/-- The per-candidate step of `main`: run the check, then attach the .node
file list only for Electron apps (and only when listing is requested). -/
def processApp (env : AppEnv) (roots : List Entry) (listNodeFiles : Bool)
    (maxNodeFiles : Nat) : AppResult :=
  let r := CheckAsarIntegrityForApp env
  if listNodeFiles && r.isElectron then
    { r with nodeFiles := FindNodeFiles roots maxNodeFiles }
  else r

/-- The Integrity column of `outputResultsText`'s summary table. -/
def integrityCell (r : AppResult) : Bytes :=
  if r.hasAsarFile then (if r.asarIntegrity then "Yes".data else "No".data)
  else "N/A".data

/-- The OnlyLoadAppFromAsar column of `outputResultsText`'s summary table. -/
def onlyLoadCell (r : AppResult) : Bytes :=
  if r.hasAsarFile then (if r.onlyLoadFromAsar then "Yes".data else "No".data)
  else "N/A".data

/-- The primary evidence file of the integrity check: `Info.plist` on
macOS, the main executable on Windows. -/
def primaryEvidenceUnreadable : AppEnv → Prop
  | AppEnv.darwin fs => fs.plistRead = none
  | AppEnv.windows fs => fs.exeRead = none
  | AppEnv.other => False

instance : DecidablePred primaryEvidenceUnreadable := by
  intro env
  cases env <;> simp only [primaryEvidenceUnreadable] <;> infer_instance

/-! ### Claim C3 about rule-1 version resolution -/

/-- Modelled from the spec's words for claim C3: the regex family is applied
in listed order to the bundle's own plist, and the framework's plist is
consulted ONLY if the version is still unresolved; no match anywhere leaves
the version unknown. -/
def claimMacosVersionRule1 (fs : MacFS) : Bytes :=
  let fromPlist :=
    match fs.plistRead with
    | some plist => findFirstVersion plist
    | none => none
  match fromPlist with
  | some cap => cap
  | none =>
    match (if fs.frameworkPlistExists then fs.frameworkPlistRead else none) with
    | some fwPlist =>
      match findFirstVersion fwPlist with
      | some cap => cap
      | none => unknownVersion
    | none => unknownVersion

def c3Plist : Bytes := "Electron/1.2".data

def c3FwPlist : Bytes := "Electron/3.4".data

def c3CodeVer : Bytes := "3.4".data

def c3ClaimVer : Bytes := "1.2".data

def c3Fs : MacFS :=
  { isAppSuffix := true, plistExists := true, frameworkExists := true,
    plistRead := some c3Plist, frameworkPlistExists := true,
    frameworkPlistRead := some c3FwPlist, asarExists := false,
    packageJsonExists := false, packageJsonRead := none,
    execExists := false, execRead := none }

/-- C3 counterexample: on a bundle whose own plist already resolves the
version (to 1.2), the code still consults the framework plist and lets its
match (3.4) overwrite the result, while the claimed procedure would stop at
1.2.  So the framework plist is NOT consulted only when unresolved. -/
theorem c3_counterexample :
    isElectronAppMacos c3Fs = (true, c3CodeVer) ∧
    claimMacosVersionRule1 c3Fs = c3ClaimVer ∧
    c3CodeVer ≠ c3ClaimVer :=
  ⟨by decide, by decide, by decide⟩

/-- C3 amended: in rule 1 the regex family is applied in listed order to the
bundle's plist, and then - whenever the framework plist exists and is
readable - applied again to the framework plist, a match there overriding
the bundle-plist result even when that was already resolved; if no pattern
matches anywhere the version is "unknown". -/
theorem c3_amended (fs : MacFS) (plist : Bytes) (hp : fs.plistRead = some plist)
    (h1 : fs.isAppSuffix = true) (h2 : fs.plistExists = true)
    (h3 : fs.frameworkExists = true) :
    isElectronAppMacos fs = (true,
      match (if fs.frameworkPlistExists then fs.frameworkPlistRead else none) with
      | some fwPlist =>
        (match findFirstVersion fwPlist with
         | some cap => cap
         | none =>
           (match findFirstVersion plist with
            | some cap => cap
            | none => unknownVersion))
      | none =>
        (match findFirstVersion plist with
         | some cap => cap
         | none => unknownVersion)) := by
  simp only [isElectronAppMacos, h1, h2, h3, Bool.not_true, Bool.false_eq_true,
    if_false, if_true]
  simp only [macosVersionRule1, hp]
  cases hfe : fs.frameworkPlistExists with
  | false => simp
  | true =>
    cases hfr : fs.frameworkPlistRead with
    | none => simp
    | some fwPlist => cases hff : findFirstVersion fwPlist <;> simp [hff]

theorem c3_amended_witness :
    (c3Fs.plistRead = some c3Plist) ∧ (c3Fs.isAppSuffix = true) ∧
    (c3Fs.plistExists = true) ∧ (c3Fs.frameworkExists = true) ∧
    (isElectronAppMacos c3Fs = (true,
      match (if c3Fs.frameworkPlistExists then c3Fs.frameworkPlistRead else none) with
      | some fwPlist =>
        (match findFirstVersion fwPlist with
         | some cap => cap
         | none =>
           (match findFirstVersion c3Plist with
            | some cap => cap
            | none => unknownVersion))
      | none =>
        (match findFirstVersion c3Plist with
         | some cap => cap
         | none => unknownVersion))) :=
  ⟨rfl, rfl, rfl, rfl, c3_amended c3Fs c3Plist rfl rfl rfl rfl⟩

/-! ### Claims C4, C9, C7 about the pipeline -/

theorem processApp_proj (env : AppEnv) (roots : List Entry) (lnf : Bool) (mnf : Nat) :
    (processApp env roots lnf mnf).isElectron = (CheckAsarIntegrityForApp env).isElectron ∧
    (processApp env roots lnf mnf).version = (CheckAsarIntegrityForApp env).version ∧
    (processApp env roots lnf mnf).hasAsarFile = (CheckAsarIntegrityForApp env).hasAsarFile ∧
    (processApp env roots lnf mnf).asarIntegrity = (CheckAsarIntegrityForApp env).asarIntegrity ∧
    (processApp env roots lnf mnf).onlyLoadFromAsar =
      (CheckAsarIntegrityForApp env).onlyLoadFromAsar ∧
    (processApp env roots lnf mnf).integrityError =
      (CheckAsarIntegrityForApp env).integrityError := by
  simp only [processApp]
  cases hc : lnf && (CheckAsarIntegrityForApp env).isElectron <;> simp [hc]

theorem check_nodeFiles_nil (env : AppEnv) :
    (CheckAsarIntegrityForApp env).nodeFiles = [] := by
  cases env with
  | other => rfl
  | darwin fs =>
    simp only [CheckAsarIntegrityForApp]
    cases hc : (isElectronAppMacos fs).1 with
    | false => simp [hc, emptyAppResult]
    | true =>
      cases ha : fs.asarExists with
      | false => simp [hc, ha, emptyAppResult]
      | true =>
        cases hk : checkAsarIntegrityMacos fs with
        | ok pr =>
          obtain ⟨i, o⟩ := pr
          simp [hc, ha, hk, emptyAppResult]
        | error msg => simp [hc, ha, hk, emptyAppResult]
  | windows fs =>
    simp only [CheckAsarIntegrityForApp]
    cases hc : (isElectronAppWindows fs).1 with
    | false => simp [hc, emptyAppResult]
    | true =>
      cases ha : fs.asarExists with
      | false => simp [hc, ha, emptyAppResult]
      | true =>
        cases hk : checkAsarIntegrityWindows fs with
        | ok pr =>
          obtain ⟨i, o⟩ := pr
          simp [hc, ha, hk, emptyAppResult]
        | error msg => simp [hc, ha, hk, emptyAppResult]

theorem check_hasAsar_false (env : AppEnv)
    (h : (CheckAsarIntegrityForApp env).hasAsarFile = false) :
    (CheckAsarIntegrityForApp env).asarIntegrity = false ∧
    (CheckAsarIntegrityForApp env).onlyLoadFromAsar = false := by
  cases env with
  | other => simp [CheckAsarIntegrityForApp, emptyAppResult]
  | darwin fs =>
    simp only [CheckAsarIntegrityForApp] at h ⊢
    cases hc : (isElectronAppMacos fs).1 with
    | false => simp [hc, emptyAppResult]
    | true =>
      cases ha : fs.asarExists with
      | false => simp [hc, ha, emptyAppResult]
      | true =>
        exfalso
        cases hk : checkAsarIntegrityMacos fs with
        | ok pr =>
          obtain ⟨i, o⟩ := pr
          simp [hc, ha, hk, emptyAppResult] at h
        | error msg => simp [hc, ha, hk, emptyAppResult] at h
  | windows fs =>
    simp only [CheckAsarIntegrityForApp] at h ⊢
    cases hc : (isElectronAppWindows fs).1 with
    | false => simp [hc, emptyAppResult]
    | true =>
      cases ha : fs.asarExists with
      | false => simp [hc, ha, emptyAppResult]
      | true =>
        exfalso
        cases hk : checkAsarIntegrityWindows fs with
        | ok pr =>
          obtain ⟨i, o⟩ := pr
          simp [hc, ha, hk, emptyAppResult] at h
        | error msg => simp [hc, ha, hk, emptyAppResult] at h

/-- C4: whenever the computed record has `hasAsarFile = false`, the
integrity check was skipped: both integrity booleans are at their false
default, and the report renders both columns as "N/A". -/
theorem c4_no_archive_defaults (env : AppEnv) (roots : List Entry) (lnf : Bool) (mnf : Nat)
    (h : (processApp env roots lnf mnf).hasAsarFile = false) :
    (processApp env roots lnf mnf).asarIntegrity = false ∧
    (processApp env roots lnf mnf).onlyLoadFromAsar = false ∧
    integrityCell (processApp env roots lnf mnf) = "N/A".data ∧
    onlyLoadCell (processApp env roots lnf mnf) = "N/A".data := by
  obtain ⟨-, -, h3, h4, h5, -⟩ := processApp_proj env roots lnf mnf
  have h9 := h
  rw [h3] at h9
  obtain ⟨hi, ho⟩ := check_hasAsar_false env h9
  rw [h4, h5]
  exact ⟨hi, ho, by simp [integrityCell, h], by simp [onlyLoadCell, h]⟩

theorem c4_witness :
    ((processApp AppEnv.other [] false 0).hasAsarFile = false) ∧
    ((processApp AppEnv.other [] false 0).asarIntegrity = false ∧
      (processApp AppEnv.other [] false 0).onlyLoadFromAsar = false ∧
      integrityCell (processApp AppEnv.other [] false 0) = "N/A".data ∧
      onlyLoadCell (processApp AppEnv.other [] false 0) = "N/A".data) :=
  ⟨by decide, c4_no_archive_defaults AppEnv.other [] false 0 (by decide)⟩

theorem isElectronAppMacos_false_version (fs : MacFS)
    (h : (isElectronAppMacos fs).1 = false) : (isElectronAppMacos fs).2 = [] := by
  unfold isElectronAppMacos at h ⊢
  cases h1 : fs.isAppSuffix <;> cases h2 : fs.plistExists <;>
    cases h3 : fs.frameworkExists <;> cases h4 : fs.asarExists <;> simp_all

theorem isElectronAppWindows_false_version (fs : WinFS)
    (h : (isElectronAppWindows fs).1 = false) : (isElectronAppWindows fs).2 = [] := by
  unfold isElectronAppWindows at h ⊢
  cases h1 : fs.exeExists <;> cases h2 : fs.resourcesExists <;>
    cases h3 : fs.asarExists <;> cases h4 : fs.electronAsarExists <;> simp_all

theorem check_not_electron (env : AppEnv)
    (h : (CheckAsarIntegrityForApp env).isElectron = false) :
    (CheckAsarIntegrityForApp env).version = [] ∧
    (CheckAsarIntegrityForApp env).hasAsarFile = false ∧
    (CheckAsarIntegrityForApp env).asarIntegrity = false ∧
    (CheckAsarIntegrityForApp env).onlyLoadFromAsar = false := by
  cases env with
  | other => simp [CheckAsarIntegrityForApp, emptyAppResult]
  | darwin fs =>
    simp only [CheckAsarIntegrityForApp] at h ⊢
    cases hc : (isElectronAppMacos fs).1 with
    | false => simp [hc, emptyAppResult, isElectronAppMacos_false_version fs hc]
    | true =>
      exfalso
      cases ha : fs.asarExists with
      | false => simp [hc, ha, emptyAppResult] at h
      | true =>
        cases hk : checkAsarIntegrityMacos fs with
        | ok pr =>
          obtain ⟨i, o⟩ := pr
          simp [hc, ha, hk, emptyAppResult] at h
        | error msg => simp [hc, ha, hk, emptyAppResult] at h
  | windows fs =>
    simp only [CheckAsarIntegrityForApp] at h ⊢
    cases hc : (isElectronAppWindows fs).1 with
    | false => simp [hc, emptyAppResult, isElectronAppWindows_false_version fs hc]
    | true =>
      exfalso
      cases ha : fs.asarExists with
      | false => simp [hc, ha, emptyAppResult] at h
      | true =>
        cases hk : checkAsarIntegrityWindows fs with
        | ok pr =>
          obtain ⟨i, o⟩ := pr
          simp [hc, ha, hk, emptyAppResult] at h
        | error msg => simp [hc, ha, hk, emptyAppResult] at h

/-- C9: a candidate classified as not-Electron has an empty version string
and every archive-related field (`hasAsarFile`, the two integrity booleans,
the .node file list) at its zero / not-applicable default. -/
theorem c9_not_electron_defaults (env : AppEnv) (roots : List Entry) (lnf : Bool) (mnf : Nat)
    (h : (processApp env roots lnf mnf).isElectron = false) :
    (processApp env roots lnf mnf).version = [] ∧
    (processApp env roots lnf mnf).hasAsarFile = false ∧
    (processApp env roots lnf mnf).asarIntegrity = false ∧
    (processApp env roots lnf mnf).onlyLoadFromAsar = false ∧
    (processApp env roots lnf mnf).nodeFiles = [] := by
  obtain ⟨h1, h2, h3, h4, h5, -⟩ := processApp_proj env roots lnf mnf
  have h9 := h
  rw [h1] at h9
  have hnode : (processApp env roots lnf mnf).nodeFiles = [] := by
    simp only [processApp]
    simp [h9, check_nodeFiles_nil env]
  obtain ⟨k1, k2, k3, k4⟩ := check_not_electron env h9
  rw [h2, h3, h4, h5]
  exact ⟨k1, k2, k3, k4, hnode⟩

def c9Fs : MacFS :=
  { isAppSuffix := false, plistExists := false, frameworkExists := false,
    plistRead := none, frameworkPlistExists := false, frameworkPlistRead := none,
    asarExists := false, packageJsonExists := false, packageJsonRead := none,
    execExists := false, execRead := none }

theorem c9_witness :
    ((processApp (AppEnv.darwin c9Fs) [] true 5).isElectron = false) ∧
    ((processApp (AppEnv.darwin c9Fs) [] true 5).version = [] ∧
      (processApp (AppEnv.darwin c9Fs) [] true 5).hasAsarFile = false ∧
      (processApp (AppEnv.darwin c9Fs) [] true 5).asarIntegrity = false ∧
      (processApp (AppEnv.darwin c9Fs) [] true 5).onlyLoadFromAsar = false ∧
      (processApp (AppEnv.darwin c9Fs) [] true 5).nodeFiles = []) :=
  ⟨by decide, c9_not_electron_defaults (AppEnv.darwin c9Fs) [] true 5 (by decide)⟩

/-- C7: on a supported platform, if the record shows the archive present
and the primary evidence file (plist on macOS, executable on Windows) was
unreadable, then the record carries a non-empty `integrityError` diagnostic
and both integrity booleans are false - and conversely a non-empty
diagnostic arises only in exactly that situation.  The check is a total
function, so a record is always produced rather than the scan aborting. -/
theorem c7_evidence_error (env : AppEnv) (hs : env ≠ AppEnv.other) :
    ((CheckAsarIntegrityForApp env).hasAsarFile = true → primaryEvidenceUnreadable env →
      (CheckAsarIntegrityForApp env).integrityError ≠ [] ∧
      (CheckAsarIntegrityForApp env).asarIntegrity = false ∧
      (CheckAsarIntegrityForApp env).onlyLoadFromAsar = false) ∧
    ((CheckAsarIntegrityForApp env).integrityError ≠ [] →
      (CheckAsarIntegrityForApp env).hasAsarFile = true ∧ primaryEvidenceUnreadable env) := by
  cases env with
  | other => exact absurd rfl hs
  | darwin fs =>
    simp only [CheckAsarIntegrityForApp, primaryEvidenceUnreadable]
    cases hc : (isElectronAppMacos fs).1 with
    | false => simp [hc, emptyAppResult]
    | true =>
      cases ha : fs.asarExists with
      | false => simp [hc, ha, emptyAppResult]
      | true =>
        cases hp : fs.plistRead with
        | none =>
          have hk : checkAsarIntegrityMacos fs =
              Except.error ("error reading Info.plist".data) := by
            simp [checkAsarIntegrityMacos, hp]
          simp [hc, ha, hk, hp, emptyAppResult]
        | some plist =>
          have hk : checkAsarIntegrityMacos fs = Except.ok
              ((checkAsarIntegrityMacos fs).toOption.getD (false, false)) := by
            simp only [checkAsarIntegrityMacos, hp]
            rfl
          rw [hk]
          simp [hc, ha, hp, emptyAppResult]
  | windows fs =>
    simp only [CheckAsarIntegrityForApp, primaryEvidenceUnreadable]
    cases hc : (isElectronAppWindows fs).1 with
    | false => simp [hc, emptyAppResult]
    | true =>
      cases ha : fs.asarExists with
      | false => simp [hc, ha, emptyAppResult]
      | true =>
        cases hp : fs.exeRead with
        | none =>
          have hk : checkAsarIntegrityWindows fs =
              Except.error ("error reading executable".data) := by
            simp [checkAsarIntegrityWindows, hp]
          simp [hc, ha, hk, hp, emptyAppResult]
        | some exe =>
          have hk : checkAsarIntegrityWindows fs =
              Except.ok (windowsHasAsarIntegrity exe, windowsOnlyLoad exe) := by
            simp [checkAsarIntegrityWindows, hp]
          rw [hk]
          simp [hc, ha, hp, emptyAppResult]

def c7Fs : MacFS :=
  { isAppSuffix := true, plistExists := true, frameworkExists := true,
    plistRead := none, frameworkPlistExists := false, frameworkPlistRead := none,
    asarExists := true, packageJsonExists := false, packageJsonRead := none,
    execExists := false, execRead := none }

theorem c7_witness :
    (AppEnv.darwin c7Fs ≠ AppEnv.other) ∧
    (((CheckAsarIntegrityForApp (AppEnv.darwin c7Fs)).hasAsarFile = true →
        primaryEvidenceUnreadable (AppEnv.darwin c7Fs) →
        (CheckAsarIntegrityForApp (AppEnv.darwin c7Fs)).integrityError ≠ [] ∧
        (CheckAsarIntegrityForApp (AppEnv.darwin c7Fs)).asarIntegrity = false ∧
        (CheckAsarIntegrityForApp (AppEnv.darwin c7Fs)).onlyLoadFromAsar = false) ∧
      ((CheckAsarIntegrityForApp (AppEnv.darwin c7Fs)).integrityError ≠ [] →
        (CheckAsarIntegrityForApp (AppEnv.darwin c7Fs)).hasAsarFile = true ∧
        primaryEvidenceUnreadable (AppEnv.darwin c7Fs))) :=
  ⟨by decide, c7_evidence_error (AppEnv.darwin c7Fs) (by decide)⟩

/-! ### Claim C6 about the native-module enumeration cap -/

theorem visitL_spec : ∀ (maxF : Nat) (acc : List Bytes) (l : List Entry),
    0 < maxF → acc.length < maxF →
    visitL maxF acc l = (acc ++ (allNodeFilesL l).take (maxF - acc.length),
      if maxF ≤ acc.length + (allNodeFilesL l).length then WalkSig.abort else WalkSig.cont) := by
  intro maxF acc l
  induction acc, l using visitL.induct with
  | maxF => exact maxF
  | case1 acc =>
    intro h0 hlt
    simp only [visitL, allNodeFilesL, List.take_nil, List.append_nil, List.length_nil,
      Nat.add_zero]
    rw [if_neg (by omega)]
  | case2 acc name es ih =>
    intro h0 hlt
    simpa [visitL, allNodeFilesL] using ih h0 hlt
  | case3 acc name aerr es h1 h2 acc2 h3 =>
    intro h0 hlt
    rw [Bool.not_eq_true] at h1
    unfold acc2 at h3
    have hm : maxF = acc.length + 1 := by
      rcases h3 with ⟨-, h3⟩
      simp only [List.length_append, List.length_cons, List.length_nil] at h3
      omega
    have hco : maxF ≤ acc.length + (allNodeFilesL (Entry.file name aerr :: es)).length := by
      simp [allNodeFilesL, h1, h2]
      omega
    rw [if_pos hco]
    simp [visitL, allNodeFilesL, h1, h2, h3, hm]
  | case4 acc name aerr es h1 h2 acc2 h3 ih =>
    intro h0 hlt
    rw [Bool.not_eq_true] at h1
    unfold acc2 at h3 ih
    have hlen : (acc ++ [name]).length = acc.length + 1 := by simp
    have hlt2 : acc.length + 1 < maxF := by
      rcases (not_and_or.mp h3) with hbad | hle
      · exact absurd h0 hbad
      · rw [hlen] at hle
        omega
    have ihr := ih h0 (by omega)
    have lhs : visitL maxF acc (Entry.file name aerr :: es) =
        visitL maxF (acc ++ [name]) es := by
      simp [visitL, h1, h2, if_neg h3]
      intro h4 h5
      exact absurd h5 (by omega)
    rw [lhs, ihr]
    have e1 : maxF - acc.length = (maxF - (acc.length + 1)) + 1 := by omega
    have e2 : allNodeFilesL (Entry.file name aerr :: es) = name :: allNodeFilesL es := by
      simp [allNodeFilesL, h1, h2]
    rw [e2, e1, List.take_succ_cons]
    have e3 : acc ++ [name] ++ (allNodeFilesL es).take (maxF - (acc.length + 1)) =
        acc ++ name :: (allNodeFilesL es).take (maxF - (acc.length + 1)) := by
      simp
    rw [hlen, e3]
    by_cases hco : maxF ≤ acc.length + 1 + (allNodeFilesL es).length
    · rw [if_pos hco, if_pos (by simp; omega)]
    · rw [if_neg hco, if_neg (by simp; omega)]
  | case5 acc name aerr es h1 h2 ih =>
    intro h0 hlt
    rw [Bool.not_eq_true] at h1
    simpa [visitL, allNodeFilesL, h1, h2] using ih h0 hlt
  | case6 acc name cs es ih =>
    intro h0 hlt
    simpa [visitL, allNodeFilesL] using ih h0 hlt
  | case7 acc name aerr cs es h1 acc2 heq ih =>
    intro h0 hlt
    rw [Bool.not_eq_true] at h1
    have ihr := ih h0 hlt
    rw [ihr] at heq
    obtain ⟨e1, e2⟩ := Prod.mk.injEq .. |>.mp heq
    have hco : maxF ≤ acc.length + (allNodeFilesL cs).length := by
      by_contra hno
      rw [if_neg hno] at e2
      exact WalkSig.noConfusion e2
    have lhs : visitL maxF acc (Entry.dir name aerr cs :: es) = (acc2, WalkSig.abort) := by
      simp [visitL, h1, ihr, hco, e1]
    rw [lhs]
    have e4 : allNodeFilesL (Entry.dir name aerr cs :: es) =
        allNodeFilesL cs ++ allNodeFilesL es := by
      simp [allNodeFilesL, h1]
    rw [e4]
    have e5 : (allNodeFilesL cs ++ allNodeFilesL es).take (maxF - acc.length) =
        (allNodeFilesL cs).take (maxF - acc.length) :=
      List.take_append_of_le_length (by omega)
    rw [e5, ← e1]
    rw [if_pos (by simp; omega)]
  | case8 acc name aerr cs es h1 acc2 heq ih2 ih1 =>
    intro h0 hlt
    rw [Bool.not_eq_true] at h1
    have ihr := ih2 h0 hlt
    rw [ihr] at heq
    obtain ⟨e1, e2⟩ := Prod.mk.injEq .. |>.mp heq
    have hco : ¬ (maxF ≤ acc.length + (allNodeFilesL cs).length) := by
      intro hyes
      rw [if_pos hyes] at e2
      exact WalkSig.noConfusion e2
    have hfull : (allNodeFilesL cs).take (maxF - acc.length) = allNodeFilesL cs :=
      List.take_of_length_le (by omega)
    have hacc2 : acc2 = acc ++ allNodeFilesL cs := by
      rw [← e1, hfull]
    have hacc2len : acc2.length = acc.length + (allNodeFilesL cs).length := by
      simp [hacc2]
    have ihes := ih1 h0 (by omega)
    have lhs : visitL maxF acc (Entry.dir name aerr cs :: es) = visitL maxF acc2 es := by
      simp [visitL, h1, ihr, hco, hacc2, hfull]
    rw [lhs, ihes]
    have e4 : allNodeFilesL (Entry.dir name aerr cs :: es) =
        allNodeFilesL cs ++ allNodeFilesL es := by
      simp [allNodeFilesL, h1]
    rw [e4, List.take_append_eq_append_take]
    have e6 : maxF - acc.length - (allNodeFilesL cs).length = maxF - acc2.length := by
      omega
    rw [hfull, e6, hacc2]
    rw [List.append_assoc]
    by_cases hco2 : maxF ≤ (acc ++ allNodeFilesL cs).length + (allNodeFilesL es).length
    · rw [if_pos hco2, if_pos (by
        simp only [List.length_append] at hco2 ⊢
        omega)]
    · rw [if_neg hco2, if_neg (by
        simp only [List.length_append] at hco2 ⊢
        omega)]

theorem allNodeFilesL_cons (r : Entry) (rs : List Entry) :
    allNodeFilesL (r :: rs) = allNodeFilesL [r] ++ allNodeFilesL rs := by
  cases r <;> simp [allNodeFilesL]

theorem allNodeFilesL_append (xs ys : List Entry) :
    allNodeFilesL (xs ++ ys) = allNodeFilesL xs ++ allNodeFilesL ys := by
  induction xs with
  | nil => simp [allNodeFilesL]
  | cons x xs ih =>
    rw [List.cons_append, allNodeFilesL_cons, allNodeFilesL_cons x xs, ih,
      List.append_assoc]

theorem findNodeFilesAux_spec : ∀ (maxF : Nat) (acc : List Bytes) (roots : List Entry),
    0 < maxF → acc.length < maxF →
    findNodeFilesAux maxF acc roots = acc ++ (allNodeFilesL roots).take (maxF - acc.length) := by
  intro maxF acc roots h0
  induction roots generalizing acc with
  | nil =>
    intro hlt
    simp [findNodeFilesAux, allNodeFilesL]
  | cons r rs ih =>
    intro hlt
    have hv := visitL_spec maxF acc [r] h0 hlt
    have hfst : (visitL maxF acc [r]).1 =
        acc ++ (allNodeFilesL [r]).take (maxF - acc.length) := by
      rw [hv]
    have hlen : (visitL maxF acc [r]).1.length =
        acc.length + min (maxF - acc.length) (allNodeFilesL [r]).length := by
      rw [hfst]
      simp [List.length_take]
    rw [allNodeFilesL_cons]
    have lhs : findNodeFilesAux maxF acc (r :: rs) =
        (if 0 < maxF ∧ maxF ≤ (visitL maxF acc [r]).1.length then (visitL maxF acc [r]).1
         else findNodeFilesAux maxF (visitL maxF acc [r]).1 rs) := by
      simp [findNodeFilesAux]
    rw [lhs]
    by_cases hco : 0 < maxF ∧ maxF ≤ (visitL maxF acc [r]).1.length
    · rw [if_pos hco]
      rcases hco with ⟨-, hco⟩
      rw [hlen] at hco
      have htk : maxF - acc.length ≤ (allNodeFilesL [r]).length := by omega
      rw [List.take_append_of_le_length htk, hfst]
    · rw [if_neg hco]
      have hlt2 : (visitL maxF acc [r]).1.length < maxF := by
        rcases (not_and_or.mp hco) with hbad | hle
        · exact absurd h0 hbad
        · omega
      have ihr := ih _ hlt2
      rw [ihr, hfst]
      have hnf : (allNodeFilesL [r]).length < maxF - acc.length := by
        rw [hlen] at hlt2
        omega
      have hfull : (allNodeFilesL [r]).take (maxF - acc.length) = allNodeFilesL [r] :=
        List.take_of_length_le (by omega)
      rw [List.take_append_eq_append_take, hfull]
      have e6 : maxF - acc.length - (allNodeFilesL [r]).length =
          maxF - (acc ++ allNodeFilesL [r]).length := by
        simp
        omega
      rw [e6, List.append_assoc]

/-- C6: with a positive cap `n` smaller than the number of matching files,
`FindNodeFiles` returns exactly `n` names, they are the first `n` matches in
traversal-encounter order, and appending further search roots after the cap
is reached does not change the result (the remaining roots are not
traversed). -/
theorem c6_node_files_cap (roots extra : List Entry) (n : Nat)
    (h0 : 0 < n) (hM : n < (allNodeFilesL roots).length) :
    (FindNodeFiles roots n).length = n ∧
    FindNodeFiles roots n = (allNodeFilesL roots).take n ∧
    FindNodeFiles (roots ++ extra) n = FindNodeFiles roots n := by
  have h1 : FindNodeFiles roots n = (allNodeFilesL roots).take n := by
    have := findNodeFilesAux_spec n [] roots h0 (by simpa using h0)
    simpa [FindNodeFiles] using this
  have h2 : FindNodeFiles (roots ++ extra) n = (allNodeFilesL (roots ++ extra)).take n := by
    have := findNodeFilesAux_spec n [] (roots ++ extra) h0 (by simpa using h0)
    simpa [FindNodeFiles] using this
  refine ⟨?_, h1, ?_⟩
  · rw [h1]
    simp [List.length_take]
    omega
  · rw [h2, h1, allNodeFilesL_append,
      List.take_append_of_le_length (Nat.le_of_lt hM)]

def c6Roots : List Entry :=
  [Entry.dir ("r".data) false
    [Entry.file ("a.node".data) false, Entry.file ("B.NODE".data) false,
      Entry.file ("skip.txt".data) false, Entry.file ("c.node".data) false]]

def c6Extra : List Entry := [Entry.file ("d.node".data) false]

theorem c6Roots_all : allNodeFilesL c6Roots = ["a.node".data, "B.NODE".data, "c.node".data] := by
  simp only [c6Roots, allNodeFilesL]
  norm_num
  decide

theorem c6_witness :
    (0 < 2) ∧ (2 < (allNodeFilesL c6Roots).length) ∧
    ((FindNodeFiles c6Roots 2).length = 2 ∧
      FindNodeFiles c6Roots 2 = (allNodeFilesL c6Roots).take 2 ∧
      FindNodeFiles (c6Roots ++ c6Extra) 2 = FindNodeFiles c6Roots 2) :=
  ⟨by decide, by rw [c6Roots_all]; decide,
    c6_node_files_cap c6Roots c6Extra 2 (by decide) (by rw [c6Roots_all]; decide)⟩

end AsarScan
